import Mathlib

/-! Verification of the `codex` notation compiler and modifier-matching engine

This file gives a shallow embedding of the Rust sources of the `codex`
repository (`src/shared.rs`, `src/lib.rs` and `build.rs`) and proves or
refutes the frozen specification claims about them.

Strings from the Rust side (`&str`, `String`) are modelled as `List Char`
(abbreviated `Str`); byte order on UTF-8 strings coincides with code-point
lexicographic order, so `Char`-wise comparison models Rust's `&str` ordering.
-/

/-- Rust string slices are modelled as lists of characters. -/
abbrev Str := List Char

/-- Convenience conversion from a Lean string literal to `Str`. -/
def strOf (s : String) : Str := s.data

namespace codex

/-! Embedding of `src/shared.rs`: `ModifierSet`. -/

/-- A set of modifiers, stored as the raw dotted string
(`struct ModifierSet<S>(S)` from `shared.rs`). -/
structure ModifierSet where
  raw : Str
deriving DecidableEq, Repr

/-- `ModifierSet::from_raw_dotted`: wraps the raw dotted string. -/
def ModifierSet.from_raw_dotted (s : Str) : ModifierSet := ⟨s⟩

/-- `ModifierSet::default`: the empty string. -/
def ModifierSet.default : ModifierSet := ⟨[]⟩

/-- `str::split('.')`: splits at every dot; always returns at least one
(possibly empty) piece, like Rust's `split`. -/
def splitOnDot : Str → List Str
  | [] => [[]]
  | c :: rest =>
    if c = '.' then [] :: splitOnDot rest
    else
      match splitOnDot rest with
      | [] => [[c]]
      | t :: ts => (c :: t) :: ts

/-- `ModifierSet::is_empty`. -/
def ModifierSet.is_empty (ms : ModifierSet) : Bool := ms.raw.isEmpty

/-- The iterator of `ModifierSet` (`IntoIterator for ModifierSet<&str>`):
`self.0.split('.')`, except that for the empty string the iterator is
emptied first. -/
def ModifierSet.modifiers (ms : ModifierSet) : List Str :=
  if ms.raw.isEmpty then [] else splitOnDot ms.raw

/-- `Modifier::name`: `self.0.strip_suffix('?').unwrap_or(self.0)`. -/
def Modifier.name (m : Str) : Str :=
  if m.getLast? = some '?' then m.dropLast else m

/-- `Modifier::is_optional`: `self.0.ends_with('?')`. -/
def Modifier.is_optional (m : Str) : Bool := m.getLast? = some '?'

/-- `ModifierSet::contains`: `self.iter().any(|lhs| lhs.name() == m)`. -/
def ModifierSet.contains (ms : ModifierSet) (m : Str) : Bool :=
  ms.modifiers.any (fun lhs => Modifier.name lhs = m)

/-- `ModifierSet::is_subset`:
`self.iter().all(|m| other.contains(m.name()))`. -/
def ModifierSet.is_subset (ms other : ModifierSet) : Bool :=
  ms.modifiers.all (fun m => other.contains (Modifier.name m))

/-- `ModifierSet::required_is_subset`:
`self.iter().filter(|m| !m.is_optional()).all(|m| other.contains(m.as_str()))`. -/
def ModifierSet.required_is_subset (ms other : ModifierSet) : Bool :=
  (ms.modifiers.filter (fun m => !(Modifier.is_optional m))).all
    (fun m => other.contains m)

/-! Embedding of `ModifierSet::best_match_in`. -/

/-- The eligibility filter of `best_match_in`:
`set.required_is_subset(self) && self.is_subset(*set)`. -/
def eligible (query set : ModifierSet) : Bool :=
  set.required_is_subset query && query.is_subset set

/-- The loop body statistics of `best_match_in`: the number of candidate
modifiers whose name the query contains (`matching`) and the candidate's
total number of modifiers (`total`). -/
def score (query set : ModifierSet) : Nat × Nat :=
  ((set.modifiers.filter (fun m => query.contains (Modifier.name m))).length,
    set.modifiers.length)

/-- Comparison `score > best` on `(matching, Reverse(total))` pairs: more
matching modifiers win; ties are broken by fewer total modifiers. -/
def scoreGt (s t : Nat × Nat) : Bool :=
  t.1 < s.1 || (s.1 = t.1 && s.2 < t.2)

/-- `best_score.is_none_or(|b| score > b)`. -/
def scoreBeats (s : Nat × Nat) : Option (Nat × Nat) → Bool
  | none => true
  | some b => scoreGt s b

/-- The fold of `best_match_in`'s `for` loop, carrying `best` and
`best_score`. -/
def bestMatchAux {α : Type} (query : ModifierSet) :
    Option α → Option (Nat × Nat) → List (ModifierSet × α) → Option α
  | best, _, [] => best
  | best, bestScore, c :: rest =>
    if eligible query c.1 then
      if scoreBeats (score query c.1) bestScore then
        bestMatchAux query (some c.2) (some (score query c.1)) rest
      else bestMatchAux query best bestScore rest
    else bestMatchAux query best bestScore rest

/-- `ModifierSet::best_match_in`. -/
def ModifierSet.best_match_in {α : Type} (query : ModifierSet)
    (variants : List (ModifierSet × α)) : Option α :=
  bestMatchAux query none none variants

/-! Order facts about `scoreGt`. -/

theorem scoreGt_irrefl (s : Nat × Nat) : scoreGt s s = false := by
  simp [scoreGt]

theorem scoreGt_asymm {a b : Nat × Nat} (h : scoreGt a b = true) :
    scoreGt b a = false := by
  simp [scoreGt] at h ⊢
  omega

theorem scoreGt_trans {a b c : Nat × Nat} (h1 : scoreGt a b = true)
    (h2 : scoreGt b c = true) : scoreGt a c = true := by
  simp [scoreGt] at h1 h2 ⊢
  omega

theorem scoreGt_of_gt_of_not_gt {a b c : Nat × Nat} (h1 : scoreGt a b = true)
    (h2 : scoreGt c b = false) : scoreGt a c = true := by
  simp [scoreGt] at h1 h2 ⊢
  omega

theorem scoreBeats_trans {a b : Nat × Nat} {s0 : Option (Nat × Nat)}
    (h1 : scoreGt a b = true) (h2 : scoreBeats b s0 = true) :
    scoreBeats a s0 = true := by
  cases s0 with
  | none => rfl
  | some x => exact scoreGt_trans h1 h2

theorem scoreGt_of_beats_of_not_beats {a b : Nat × Nat} {s0 : Option (Nat × Nat)}
    (h1 : scoreBeats a s0 = true) (h2 : scoreBeats b s0 = false) :
    scoreGt a b = true := by
  cases s0 with
  | none => simp [scoreBeats] at h2
  | some x => exact scoreGt_of_gt_of_not_gt h1 h2

/-! Characterization of the `best_match_in` fold. -/

theorem bestMatchAux_none_iff {α : Type} (q : ModifierSet)
    (l : List (ModifierSet × α)) :
    ∀ (b0 : Option α) (s0 : Option (Nat × Nat)),
    bestMatchAux q b0 s0 l = none ↔
      (b0 = none ∧ ∀ c ∈ l, eligible q c.1 = true →
        scoreBeats (score q c.1) s0 = false) := by
  induction l with
  | nil =>
    intro b0 s0
    simp [bestMatchAux]
  | cons c rest ih =>
    intro b0 s0
    cases helig : eligible q c.1 with
    | false =>
      rw [show bestMatchAux q b0 s0 (c :: rest) = bestMatchAux q b0 s0 rest from by
        simp [bestMatchAux, helig]]
      rw [ih]
      constructor
      · rintro ⟨hb, hall⟩
        refine ⟨hb, fun e he hee => ?_⟩
        rcases List.mem_cons.mp he with h | h
        · subst h; rw [helig] at hee; cases hee
        · exact hall e h hee
      · rintro ⟨hb, hall⟩
        exact ⟨hb, fun e he hee => hall e (List.mem_cons_of_mem _ he) hee⟩
    | true =>
      cases hbeat : scoreBeats (score q c.1) s0 with
      | false =>
        rw [show bestMatchAux q b0 s0 (c :: rest) = bestMatchAux q b0 s0 rest from by
          simp [bestMatchAux, helig, hbeat]]
        rw [ih]
        constructor
        · rintro ⟨hb, hall⟩
          refine ⟨hb, fun e he hee => ?_⟩
          rcases List.mem_cons.mp he with h | h
          · subst h; exact hbeat
          · exact hall e h hee
        · rintro ⟨hb, hall⟩
          exact ⟨hb, fun e he hee => hall e (List.mem_cons_of_mem _ he) hee⟩
      | true =>
        rw [show bestMatchAux q b0 s0 (c :: rest)
            = bestMatchAux q (some c.2) (some (score q c.1)) rest from by
          simp [bestMatchAux, helig, hbeat]]
        rw [ih]
        constructor
        · rintro ⟨hb, _⟩
          cases hb
        · rintro ⟨_, hall⟩
          have := hall c (List.mem_cons_self _ _) helig
          rw [hbeat] at this
          cases this

theorem bestMatchAux_some_iff {α : Type} (q : ModifierSet)
    (l : List (ModifierSet × α)) :
    ∀ (b0 : Option α) (s0 : Option (Nat × Nat)) (v : α),
    bestMatchAux q b0 s0 l = some v ↔
      (b0 = some v ∧ ∀ c ∈ l, eligible q c.1 = true →
          scoreBeats (score q c.1) s0 = false) ∨
      (∃ l1 c l2, l = l1 ++ c :: l2 ∧ eligible q c.1 = true ∧ c.2 = v ∧
          scoreBeats (score q c.1) s0 = true ∧
          (∀ d ∈ l1, eligible q d.1 = true →
            scoreGt (score q c.1) (score q d.1) = true) ∧
          (∀ d ∈ l2, eligible q d.1 = true →
            scoreGt (score q d.1) (score q c.1) = false)) := by
  induction l with
  | nil =>
    intro b0 s0 v
    simp [bestMatchAux]
  | cons c rest ih =>
    intro b0 s0 v
    cases helig : eligible q c.1 with
    | false =>
      rw [show bestMatchAux q b0 s0 (c :: rest) = bestMatchAux q b0 s0 rest from by
        simp [bestMatchAux, helig]]
      rw [ih]
      constructor
      · rintro (⟨hv, hall⟩ | ⟨l1, d, l2, hsplit, hd, hdv, hds, hl1, hl2⟩)
        · refine Or.inl ⟨hv, fun e he hee => ?_⟩
          rcases List.mem_cons.mp he with h | h
          · subst h; rw [helig] at hee; cases hee
          · exact hall e h hee
        · refine Or.inr ⟨c :: l1, d, l2, by simp [hsplit], hd, hdv, hds, ?_, hl2⟩
          intro e he hee
          rcases List.mem_cons.mp he with h | h
          · subst h; rw [helig] at hee; cases hee
          · exact hl1 e h hee
      · rintro (⟨hv, hall⟩ | ⟨l1, d, l2, hsplit, hd, hdv, hds, hl1, hl2⟩)
        · exact Or.inl ⟨hv, fun e he hee => hall e (List.mem_cons_of_mem _ he) hee⟩
        · cases l1 with
          | nil =>
            simp only [List.nil_append, List.cons.injEq] at hsplit
            rw [hsplit.1] at helig
            rw [helig] at hd
            cases hd
          | cons x l1' =>
            simp only [List.cons_append, List.cons.injEq] at hsplit
            refine Or.inr ⟨l1', d, l2, hsplit.2, hd, hdv, hds, ?_, hl2⟩
            exact fun e he hee => hl1 e (List.mem_cons_of_mem _ he) hee
    | true =>
      cases hbeat : scoreBeats (score q c.1) s0 with
      | false =>
        rw [show bestMatchAux q b0 s0 (c :: rest) = bestMatchAux q b0 s0 rest from by
          simp [bestMatchAux, helig, hbeat]]
        rw [ih]
        constructor
        · rintro (⟨hv, hall⟩ | ⟨l1, d, l2, hsplit, hd, hdv, hds, hl1, hl2⟩)
          · refine Or.inl ⟨hv, fun e he hee => ?_⟩
            rcases List.mem_cons.mp he with h | h
            · subst h; exact hbeat
            · exact hall e h hee
          · refine Or.inr ⟨c :: l1, d, l2, by simp [hsplit], hd, hdv, hds, ?_, hl2⟩
            intro e he hee
            rcases List.mem_cons.mp he with h | h
            · subst h; exact scoreGt_of_beats_of_not_beats hds hbeat
            · exact hl1 e h hee
        · rintro (⟨hv, hall⟩ | ⟨l1, d, l2, hsplit, hd, hdv, hds, hl1, hl2⟩)
          · exact Or.inl ⟨hv, fun e he hee => hall e (List.mem_cons_of_mem _ he) hee⟩
          · cases l1 with
            | nil =>
              simp only [List.nil_append, List.cons.injEq] at hsplit
              rw [hsplit.1] at hbeat
              rw [hbeat] at hds
              cases hds
            | cons x l1' =>
              simp only [List.cons_append, List.cons.injEq] at hsplit
              refine Or.inr ⟨l1', d, l2, hsplit.2, hd, hdv, hds, ?_, hl2⟩
              exact fun e he hee => hl1 e (List.mem_cons_of_mem _ he) hee
      | true =>
        rw [show bestMatchAux q b0 s0 (c :: rest)
            = bestMatchAux q (some c.2) (some (score q c.1)) rest from by
          simp [bestMatchAux, helig, hbeat]]
        rw [ih]
        constructor
        · rintro (⟨hv, hall⟩ | ⟨r1, d, r2, hsplit, hd, hdv, hds, hl1, hl2⟩)
          · refine Or.inr ⟨[], c, rest, by simp, helig, Option.some.inj hv, hbeat,
              by simp, fun e he hee => ?_⟩
            exact hall e he hee
          · refine Or.inr ⟨c :: r1, d, r2, by simp [hsplit], hd, hdv,
              scoreBeats_trans hds hbeat, ?_, hl2⟩
            intro e he hee
            rcases List.mem_cons.mp he with h | h
            · subst h; exact hds
            · exact hl1 e h hee
        · rintro (⟨hv, hall⟩ | ⟨l1, d, l2, hsplit, hd, hdv, hds, hl1, hl2⟩)
          · have := hall c (List.mem_cons_self _ _) helig
            rw [hbeat] at this
            cases this
          · cases l1 with
            | nil =>
              simp only [List.nil_append, List.cons.injEq] at hsplit
              refine Or.inl ⟨?_, fun e he hee => ?_⟩
              · rw [← hdv, hsplit.1]
              · have := hl2 e (hsplit.2 ▸ he) hee
                rw [show scoreBeats (score q e.1) (some (score q c.1))
                    = scoreGt (score q e.1) (score q c.1) from rfl]
                rw [hsplit.1]
                exact this
            | cons x l1' =>
              simp only [List.cons_append, List.cons.injEq] at hsplit
              have hdc : scoreGt (score q d.1) (score q c.1) = true := by
                have := hl1 x (List.mem_cons_self _ _)
                rw [← hsplit.1] at this
                exact this helig
              refine Or.inr ⟨l1', d, l2, hsplit.2, hd, hdv, hdc, ?_, hl2⟩
              exact fun e he hee => hl1 e (List.mem_cons_of_mem _ he) hee

/-! Embedding of `src/lib.rs`: `Symbol` and its lookup. -/

/-- A symbol (`enum Symbol` from `lib.rs`): a single value or a list of
`(modifiers, value, deprecation)` variants. -/
inductive Symbol where
  | single (v : Str)
  | multi (variants : List (ModifierSet × Str × Option Str))

/-- `Symbol::get`: `Single` answers only the empty modifier set (with no
deprecation); `Multi` resolves through `best_match_in` over the variant
list paired with its deprecation. -/
def Symbol.get (s : Symbol) (modifs : ModifierSet) : Option (Str × Option Str) :=
  match s with
  | .single c => if modifs.is_empty then some (c, none) else none
  | .multi list => modifs.best_match_in (list.map (fun x => (x.1, (x.2.1, x.2.2))))

end codex

namespace codex

/-- C1: `best_match_in` returns `none` iff no candidate is eligible
(`set.required_is_subset(query) && query.is_subset(set)`), and any returned
value comes from an eligible candidate whose score (more matching modifiers,
then fewer total modifiers) no eligible candidate strictly beats, every
earlier eligible candidate being strictly beaten by it (first-best wins). -/
theorem best_match_in_characterized {α : Type} (q : ModifierSet)
    (l : List (ModifierSet × α)) :
    (q.best_match_in l = none ↔ ∀ c ∈ l, eligible q c.1 = false) ∧
    (∀ v, q.best_match_in l = some v →
      ∃ l1 c l2, l = l1 ++ c :: l2 ∧ eligible q c.1 = true ∧ c.2 = v ∧
        (∀ d ∈ l, eligible q d.1 = true →
          scoreGt (score q d.1) (score q c.1) = false) ∧
        (∀ d ∈ l1, eligible q d.1 = true →
          scoreGt (score q c.1) (score q d.1) = true)) := by
  constructor
  · rw [ModifierSet.best_match_in, bestMatchAux_none_iff]
    simp only [true_and, scoreBeats]
    constructor
    · intro h c hc
      have := h c hc
      cases he : eligible q c.1
      · rfl
      · have := this he
        cases this
    · intro h c hc he
      rw [h c hc] at he
      cases he
  · intro v hv
    rw [ModifierSet.best_match_in, bestMatchAux_some_iff] at hv
    rcases hv with ⟨hv, _⟩ | ⟨l1, c, l2, hsplit, hc, hcv, _, hl1, hl2⟩
    · cases hv
    · refine ⟨l1, c, l2, hsplit, hc, hcv, ?_, hl1⟩
      intro d hd hde
      rw [hsplit] at hd
      rcases List.mem_append.mp hd with h | h
      · exact scoreGt_asymm (hl1 d h hde)
      · rcases List.mem_cons.mp h with h | h
        · subst h
          exact scoreGt_irrefl _
        · exact hl2 d h hde

/-- Witness for C1: applying the characterization at a concrete query and
candidate list where no candidate is eligible. -/
theorem best_match_in_characterized_witness :
    ModifierSet.best_match_in ⟨strOf "a"⟩ [(⟨strOf "b"⟩, (1 : Nat))] = none :=
  (best_match_in_characterized ⟨strOf "a"⟩ [(⟨strOf "b"⟩, (1 : Nat))]).1.mpr
    (by decide)

/-- C5: `is_subset` holds iff every modifier name of the left set
(optional markers stripped on both sides) occurs among the modifier names
of the right set; in particular `{a} ⊆ {a?, b}`, `{a?} ⊆ {a, b}` and
`{a?} ⊆ {a?, b}`. -/
theorem is_subset_characterized :
    (∀ a b : ModifierSet, (a.is_subset b = true ↔
        ∀ m ∈ a.modifiers, ∃ n ∈ b.modifiers,
          Modifier.name n = Modifier.name m)) ∧
    ModifierSet.is_subset ⟨strOf "a"⟩ ⟨strOf "a?.b"⟩ = true ∧
    ModifierSet.is_subset ⟨strOf "a?"⟩ ⟨strOf "a.b"⟩ = true ∧
    ModifierSet.is_subset ⟨strOf "a?"⟩ ⟨strOf "a?.b"⟩ = true := by
  refine ⟨fun a b => ?_, by decide, by decide, by decide⟩
  rw [ModifierSet.is_subset]
  simp [List.all_eq_true, ModifierSet.contains, List.any_eq_true]

/-- Witness for C5: applying the general characterization at concrete sets. -/
theorem is_subset_characterized_witness :
    ∀ m ∈ (ModifierSet.mk (strOf "a")).modifiers,
      ∃ n ∈ (ModifierSet.mk (strOf "a?.b")).modifiers,
        Modifier.name n = Modifier.name m :=
  (is_subset_characterized.1 ⟨strOf "a"⟩ ⟨strOf "a?.b"⟩).mp (by decide)

/-- C9: looking up a `Single` symbol succeeds exactly on the empty
modifier set, returning the value with no deprecation; any successful
lookup on a `Single` symbol carries deprecation `None`. -/
theorem symbol_get_single_spec (v : Str) (ms : ModifierSet) :
    (ms.raw = [] → Symbol.get (.single v) ms = some (v, none)) ∧
    (ms.raw ≠ [] → Symbol.get (.single v) ms = none) ∧
    (∀ r, Symbol.get (.single v) ms = some r → r.2 = none) := by
  refine ⟨fun h => ?_, fun h => ?_, fun r h => ?_⟩
  · simp [Symbol.get, ModifierSet.is_empty, h]
  · simp [Symbol.get, ModifierSet.is_empty, h]
  · rw [Symbol.get] at h
    by_cases he : ms.is_empty = true
    · rw [if_pos he] at h
      rw [← Option.some.inj h]
    · rw [if_neg he] at h
      cases h

/-- Witness for C9: applying the theorem at a concrete value and the empty
modifier set. -/
theorem symbol_get_single_spec_witness :
    Symbol.get (.single (strOf "x")) ⟨strOf ""⟩ = some (strOf "x", none) :=
  (symbol_get_single_spec (strOf "x") ⟨strOf ""⟩).1 rfl

/-- C10: the empty modifier set (the default, equally the one built from
the empty string) iterates over zero modifiers, `is_empty` is true,
`contains` is false for every modifier, and it is a subset of every set. -/
theorem empty_modifier_set_spec :
    ModifierSet.default.modifiers = [] ∧
    ModifierSet.from_raw_dotted (strOf "") = ModifierSet.default ∧
    ModifierSet.is_empty ModifierSet.default = true ∧
    (∀ m : Str, ModifierSet.contains ModifierSet.default m = false) ∧
    (∀ b : ModifierSet, ModifierSet.is_subset ModifierSet.default b = true) :=
  ⟨rfl, rfl, rfl, fun _ => rfl, fun _ => rfl⟩

end codex

namespace build

open codex (ModifierSet)

/-! Embedding of `build.rs`, the notation compiler: string utilities over
`Str`, mirroring the `&str` methods `build.rs` uses. -/

/-- `str::split_once(c)`: splits at the first occurrence of `sep`,
which is dropped. -/
def splitOnceChar (sep : Char) : Str → Option (Str × Str)
  | [] => none
  | c :: rest =>
    if c = sep then some ([], rest)
    else (splitOnceChar sep rest).map (fun p => (c :: p.1, p.2))

/-- `str::split_once("//")` (the only two-character pattern used). -/
def splitOnceTwo (a b : Char) : Str → Option (Str × Str)
  | [] => none
  | [_] => none
  | c :: d :: rest =>
    if c = a ∧ d = b then some ([], rest)
    else (splitOnceTwo a b (d :: rest)).map (fun p => (c :: p.1, p.2))

/-- `str::find(c)` followed by `split_at`: the first component is everything
before the first `sep`, the second starts at `sep` (still containing it). -/
def splitAtChar (sep : Char) : Str → Option (Str × Str)
  | [] => none
  | c :: rest =>
    if c = sep then some ([], c :: rest)
    else (splitAtChar sep rest).map (fun p => (c :: p.1, p.2))

/-- `str::trim` (whitespace from both ends). -/
def trimStr (l : Str) : Str :=
  ((l.dropWhile Char.isWhitespace).reverse.dropWhile Char.isWhitespace).reverse

/-- `str::strip_prefix(p)` for a string pattern. -/
def stripPrefixStr (p s : Str) : Option Str :=
  if p.isPrefixOf s then some (s.drop p.length) else none

/-- `str::strip_prefix(c)` for a character pattern. -/
def stripPrefixChar (c : Char) : Str → Option Str
  | [] => none
  | x :: rest => if x = c then some rest else none

/-- `str::strip_suffix(c)` for a character pattern. -/
def stripSuffixChar (c : Char) (s : Str) : Option Str :=
  if s.getLast? = some c then some s.dropLast else none

/-- `validate_ident`: a non-empty string of ASCII alphabetic characters
(`Char.isAlpha` is exactly ASCII `A-Z`/`a-z`, matching
`char::is_ascii_alphabetic`). -/
def validate_ident (s : Str) : Except String Unit :=
  if !s.isEmpty && s.all Char.isAlpha then .ok ()
  else .error ("invalid identifier: " ++ String.mk s)

/-! Embedding of `decode_value`. -/

/-- The value of a single hexadecimal digit (upper or lower case). -/
def hexDigitVal (c : Char) : Option Nat :=
  if '0' ≤ c ∧ c ≤ '9' then some (c.toNat - '0'.toNat)
  else if 'a' ≤ c ∧ c ≤ 'f' then some (c.toNat - 'a'.toNat + 10)
  else if 'A' ≤ c ∧ c ≤ 'F' then some (c.toNat - 'A'.toNat + 10)
  else none

/-- `u32::from_str_radix(code, 16)`: optional leading `+`, at least one hex
digit, and the value must fit in a `u32`. -/
def from_str_radix_16 (s : Str) : Option Nat :=
  let digits := match s with
    | '+' :: rest => rest
    | _ => s
  if digits.isEmpty then none
  else
    (digits.foldl
        (fun acc c => acc.bind (fun n => (hexDigitVal c).map (fun d => 16 * n + d)))
        (some 0)).bind
      (fun n => if n ≤ 0xFFFFFFFF then some n else none)

/-- `char::try_from(u32)`: accepts exactly the Unicode scalar values. -/
def char_try_from (n : Nat) : Option Char :=
  if n < 0xD800 ∨ (0xE000 ≤ n ∧ n ≤ 0x10FFFF) then some (Char.ofNat n) else none

/-- The 16 named variation selectors of the `\vs` escape. -/
def vsChar : Str → Option Char
  | ['1'] => some (Char.ofNat 0xfe00)
  | ['2'] => some (Char.ofNat 0xfe01)
  | ['3'] => some (Char.ofNat 0xfe02)
  | ['4'] => some (Char.ofNat 0xfe03)
  | ['5'] => some (Char.ofNat 0xfe04)
  | ['6'] => some (Char.ofNat 0xfe05)
  | ['7'] => some (Char.ofNat 0xfe06)
  | ['8'] => some (Char.ofNat 0xfe07)
  | ['9'] => some (Char.ofNat 0xfe08)
  | ['1', '0'] => some (Char.ofNat 0xfe09)
  | ['1', '1'] => some (Char.ofNat 0xfe0a)
  | ['1', '2'] => some (Char.ofNat 0xfe0b)
  | ['1', '3'] => some (Char.ofNat 0xfe0c)
  | ['1', '4'] => some (Char.ofNat 0xfe0d)
  | ['1', '5'] | ['t', 'e', 'x', 't'] => some (Char.ofNat 0xfe0e)
  | ['1', '6'] | ['e', 'm', 'o', 'j', 'i'] => some (Char.ofNat 0xfe0f)
  | _ => none

/-- The loop of `decode_value`, with fuel standing in for the loop's
termination on ever-shorter suffixes (error messages model Rust's
`escape_debug` as the identity). -/
def decodeValueGo : Nat → Str → Except String Str
  | 0, _ => .error "value decoding ran out of fuel"
  | fuel + 1, text =>
    if (strOf "\\u\x7b").isPrefixOf text then
      let rest := text.drop 3
      match splitOnceChar '\x7d' rest with
      | none => .error ("unclosed Unicode escape: \\u\x7b" ++ String.mk rest)
      | some (code, tail) =>
        match (from_str_radix_16 code).bind char_try_from with
        | none =>
          .error ("invalid Unicode escape \\u\x7b" ++ String.mk code ++ "\x7d")
        | some ch => (decodeValueGo fuel tail).map (fun r => ch :: r)
    else if (strOf "\\vs\x7b").isPrefixOf text then
      let rest := text.drop 4
      match splitOnceChar '\x7d' rest with
      | none => .error ("unclosed VS escape: \\vs\x7b" ++ String.mk rest)
      | some (value, tail) =>
        match vsChar value with
        | none => .error ("invalid VS escape: \\vs\x7b" ++ String.mk value ++ "\x7d")
        | some vs => (decodeValueGo fuel tail).map (fun r => vs :: r)
    else
      match splitAtChar '\\' text with
      | some (pre, tail) =>
        if pre.isEmpty then .error ("invalid escape sequence: " ++ String.mk tail)
        else (decodeValueGo fuel tail).map (fun r => pre ++ r)
      | none => .ok text

/-- `decode_value`: each loop iteration strictly shortens the remaining
text, so `length + 1` units of fuel always suffice. -/
def decode_value (text : Str) : Except String Str :=
  decodeValueGo (text.length + 1) text

/-! Embedding of `tokenize`. -/

/-- A classified source line (`enum Line` from `build.rs`). -/
inductive Line where
  | blank
  | deprecated (modifier : Option Str) (message : Str)
  | moduleStart (name : Str)
  | moduleEnd
  | symbol (name : Str) (value : Option Str)
  | variant (modifiers : ModifierSet) (value : Str)
  | eof
deriving DecidableEq

/-- `for part in rest.split('.') { validate_ident(part)?; }`. -/
def validateParts : List Str → Except String Unit
  | [] => .ok ()
  | p :: rest =>
    match validate_ident p with
    | .error e => .error e
    | .ok _ => validateParts rest

/-- `tokenize`: strips `//` comments, trims, and classifies the line. -/
def tokenize (line : Str) : Except String Line :=
  let line := match splitOnceTwo '/' '/' line with
    | some (head, _) => head
    | none => line
  let line := trimStr line
  if line.isEmpty then .ok .blank
  else
    let ht : Str × Option Str := match splitOnceChar ' ' line with
      | some (a, b) => (a, some b)
      | none => (line, none)
    let head := ht.1
    let tail := ht.2
    match (stripPrefixStr (strOf "@deprecated") head).bind (stripSuffixChar ':') with
    | some inner =>
      let modifier : Except String (Option Str) :=
        if inner.isEmpty then .ok none
        else
          match (stripPrefixChar '(' inner).bind (stripSuffixChar ')') with
          | some m => .ok (some m)
          | none => .error "malformed modifier in deprecation"
      match modifier with
      | .error e => .error e
      | .ok m =>
        match tail with
        | none => .error "missing deprecation message"
        | some t => .ok (.deprecated m (trimStr t))
    | none =>
      if tail = some ['\x7b'] then
        match validate_ident head with
        | .error e => .error e
        | .ok _ => .ok (.moduleStart head)
      else if head = ['\x7d'] ∧ tail = none then .ok .moduleEnd
      else
        match stripPrefixChar '.' head with
        | some rest =>
          match validateParts (codex.splitOnDot rest) with
          | .error e => .error e
          | .ok _ =>
            match tail with
            | none => .error "missing char"
            | some t =>
              match decode_value t with
              | .error e => .error e
              | .ok v => .ok (.variant (ModifierSet.from_raw_dotted rest) v)
        | none =>
          match validate_ident head with
          | .error e => .error e
          | .ok _ =>
            match tail with
            | none => .ok (.symbol head none)
            | some t =>
              match decode_value t with
              | .error e => .error e
              | .ok v => .ok (.symbol head (some v))

/-! The module tree built by `build.rs`. -/

/-- `enum Symbol` from `build.rs`: a single value, or variants plus
per-modifier deprecations. -/
inductive BSymbol where
  | single (v : Str)
  | multi (variants : List (ModifierSet × Str)) (deprecations : List (Str × Str))
deriving DecidableEq

mutual
/-- `enum Def` from `build.rs`. -/
inductive Def where
  | symbol (s : BSymbol)
  | module (m : Module)

/-- `struct Binding` from `build.rs`: a definition plus an optional
deprecation message. -/
inductive Binding where
  | mk (d : Def) (deprecation : Option Str)

/-- `struct Module` from `build.rs`: a list of named bindings. -/
inductive Module where
  | mk (entries : List (Str × Binding))
end

/-- The `def` field of a `Binding`. -/
def Binding.defn : Binding → Def
  | .mk d _ => d

/-- Byte-order `<=` on strings (UTF-8 byte order coincides with code-point
lexicographic order, here via `Char.toNat`). -/
def strLeb : Str → Str → Bool
  | [], _ => true
  | _ :: _, [] => false
  | a :: as, b :: bs =>
    if a.toNat < b.toNat then true
    else if a.toNat = b.toNat then strLeb as bs
    else false

/-- Byte-order `<` on strings. -/
def strLtb : Str → Str → Bool
  | [], [] => false
  | [], _ :: _ => true
  | _ :: _, [] => false
  | a :: as, b :: bs =>
    if a.toNat < b.toNat then true
    else if a.toNat = b.toNat then strLtb as bs
    else false

/-- Nondecreasing byte order, as a proposition. -/
def StrLe (a b : Str) : Prop := strLeb a b = true

/-- Strictly increasing byte order, as a proposition. -/
def StrLt (a b : Str) : Prop := strLtb a b = true

/-- A string order lifted to module entries through their name. -/
def entryRel (r : Str → Str → Prop) (a b : Str × Binding) : Prop := r a.1 b.1

instance : DecidableRel (entryRel StrLe) := fun a b =>
  inferInstanceAs (Decidable (strLeb a.1 b.1 = true))

/-- `Module::new`: sorts the bindings by name (`sort_by_key` is a stable
sort, modelled by the stable `List.insertionSort`). -/
def Module.new (list : List (Str × Binding)) : Module :=
  .mk (list.insertionSort (entryRel StrLe))

/-- Every module of the tree, recursively, has its entry names pairwise
related by `r` in order. -/
inductive AllSorted (r : Str → Str → Prop) : Module → Prop where
  | mk (entries : List (Str × Binding))
      (pairwise : List.Pairwise (entryRel r) entries)
      (submodules : ∀ p ∈ entries, ∀ m, p.2.defn = Def.module m → AllSorted r m) :
      AllSorted r (.mk entries)

/-! The declaration stream (the `filter_map` stage of `process`). -/

/-- `enum Declaration` from `build.rs`. -/
inductive Declaration where
  | moduleStart (name : Str) (deprecation : Option Str)
  | moduleEnd
  | symbol (name : Str) (value : Option Str)
      (deprecations : List (Option Str × Str))
  | variant (modifiers : ModifierSet) (value : Str)
deriving DecidableEq

/-- The stateful `filter_map` of `process`, folding `Deprecated` lines into
the pending-deprecations list and attaching or rejecting them. Produced
eagerly as a list of stream items; errors stay embedded as items, exactly as
in the lazy Rust iterator, and only take effect if `parse` consumes them. -/
def toDeclarations : List (Except String Line) → List (Option Str × Str) →
    List (Except String Declaration)
  | [], _ => []
  | item :: rest, deps =>
    match item with
    | .error e => .error e :: toDeclarations rest deps
    | .ok .blank => toDeclarations rest deps
    | .ok (.deprecated m msg) => toDeclarations rest (deps ++ [(m, msg)])
    | .ok (.moduleStart name) =>
      (match deps with
        | [] => Except.ok (Declaration.moduleStart name none)
        | [(none, d)] => Except.ok (Declaration.moduleStart name (some d))
        | _ => Except.error "wrong deprecation format for module")
        :: toDeclarations rest []
    | .ok .moduleEnd =>
      (if deps.isEmpty then Except.ok Declaration.moduleEnd
        else Except.error "dangling `@deprecated:`") :: toDeclarations rest deps
    | .ok (.symbol name value) =>
      .ok (.symbol name value deps) :: toDeclarations rest []
    | .ok (.variant ms v) =>
      (if deps.isEmpty then Except.ok (Declaration.variant ms v)
        else Except.error "dangling `@deprecated:`") :: toDeclarations rest deps
    | .ok .eof =>
      if deps.isEmpty then toDeclarations rest deps
      else .error "dangling `@deprecated:`" :: toDeclarations rest deps

/-! Embedding of `parse`. -/

/-- The variant-absorbing `while let` loop of `parse`'s `Symbol` arm.
Peeking clones and transposes the head item, so an embedded error is
propagated as soon as it is peeked at. -/
def takeVariants : List (Except String Declaration) →
    Except String (List (ModifierSet × Str) × List (Except String Declaration))
  | [] => .ok ([], [])
  | .error e :: _ => .error e
  | .ok (.variant m v) :: rest =>
    (takeVariants rest).map (fun p => ((m, v) :: p.1, p.2))
  | .ok d :: rest => .ok ([], .ok d :: rest)

/-- `parse`: recursive descent over the declaration stream, returning the
definitions of one module scope and the unconsumed remainder of the stream.
Fuel stands in for the recursion; every recursive call consumes at least
one stream item, so `length + 1` units always suffice. -/
def parseGo : Nat → List (Except String Declaration) →
    Except String (List (Str × Binding) × List (Except String Declaration))
  | 0, _ => .error "parsing ran out of fuel"
  | _ + 1, [] => .ok ([], [])
  | _ + 1, .error e :: _ => .error e
  | fuel + 1, .ok d :: rest =>
    match d with
    | .moduleEnd => .ok ([], rest)
    | .symbol name value deprecations =>
      match takeVariants rest with
      | .error e => .error e
      | .ok (variants, rest') =>
        let deprecation :=
          (deprecations.find? (fun p => p.1.isNone)).map (fun p => p.2)
        let modifier_deprecations :=
          deprecations.filterMap (fun p => p.1.map (fun m => (m, p.2)))
        match
          (if variants.isEmpty then
            match value with
            | some v => Except.ok (BSymbol.single v)
            | none => Except.error "symbol needs char or variants"
          else
            Except.ok (BSymbol.multi
              (match value with
                | some v => (ModifierSet.default, v) :: variants
                | none => variants)
              modifier_deprecations))
        with
        | .error e => .error e
        | .ok symbol =>
          match parseGo fuel rest' with
          | .error e => .error e
          | .ok (defs, rest2) =>
            .ok ((name, Binding.mk (.symbol symbol) deprecation) :: defs, rest2)
    | .moduleStart name deprecation =>
      match parseGo fuel rest with
      | .error e => .error e
      | .ok (mdefs, rest') =>
        match parseGo fuel rest' with
        | .error e => .error e
        | .ok (defs, rest2) =>
          .ok ((name, Binding.mk (.module (Module.new mdefs)) deprecation)
            :: defs, rest2)
    | .variant _ _ => .error "expected definition, found variant"

/-- `process` for one input file, up to the final `Module::new` wrap:
tokenizes every line, chains the `Eof` marker, folds deprecations and
parses. A top-level `ModuleEnd` stops `parse` early, leaving any later
stream items (including embedded errors) unconsumed, as in Rust. -/
def processLines (lines : List Str) : Except String Module :=
  let items := lines.map tokenize ++ [Except.ok Line.eof]
  let decls := toDeclarations items []
  match parseGo (decls.length + 1) decls with
  | .error e => .error e
  | .ok (defs, _) => .ok (Module.new defs)

/-! Facts about the byte order and `Module::new`. -/

theorem strLeb_total (a b : Str) : strLeb a b = true ∨ strLeb b a = true := by
  induction a generalizing b with
  | nil => exact Or.inl rfl
  | cons x xs ih =>
    cases b with
    | nil => exact Or.inr rfl
    | cons y ys =>
      rcases Nat.lt_trichotomy x.toNat y.toNat with h | h | h
      · left; simp [strLeb, h]
      · rcases ih ys with h2 | h2
        · left; simp [strLeb, h, h2]
        · right; simp [strLeb, h, h2]
      · right; simp [strLeb, h]

theorem strLeb_trans (a b c : Str) (h1 : strLeb a b = true)
    (h2 : strLeb b c = true) : strLeb a c = true := by
  induction a generalizing b c with
  | nil => rfl
  | cons x xs ih =>
    cases b with
    | nil => simp [strLeb] at h1
    | cons y ys =>
      cases c with
      | nil => simp [strLeb] at h2
      | cons z zs =>
        simp only [strLeb] at h1 h2 ⊢
        split_ifs at h1 h2 ⊢ <;>
          first
          | rfl
          | omega
          | exact ih ys zs h1 h2

instance : IsTotal (Str × Binding) (entryRel StrLe) :=
  ⟨fun a b => strLeb_total a.1 b.1⟩

instance : IsTrans (Str × Binding) (entryRel StrLe) :=
  ⟨fun a b c => strLeb_trans a.1 b.1 c.1⟩

theorem moduleNew_allSorted {defs : List (Str × Binding)}
    (h : ∀ p ∈ defs, ∀ m, p.2.defn = Def.module m → AllSorted StrLe m) :
    AllSorted StrLe (Module.new defs) := by
  refine AllSorted.mk _ ?_ ?_
  · exact List.sorted_insertionSort (entryRel StrLe) defs
  · intro p hp m hm
    exact h p ((List.perm_insertionSort (entryRel StrLe) defs).mem_iff.mp hp) m hm

/-- Every binding produced by a successful `parse` has every module inside
it recursively sorted (the submodules were wrapped by `Module::new`). -/
theorem parseGo_inv : ∀ (fuel : Nat) (decls : List (Except String Declaration))
    (res : List (Str × Binding) × List (Except String Declaration)),
    parseGo fuel decls = .ok res →
    ∀ p ∈ res.1, ∀ m, p.2.defn = Def.module m → AllSorted StrLe m := by
  intro fuel
  induction fuel with
  | zero =>
    intro decls res h
    simp [parseGo] at h
  | succ fuel ih =>
    intro decls res h
    cases decls with
    | nil =>
      simp only [parseGo] at h
      injection h with h
      rw [← h]
      intro p hp
      simp at hp
    | cons item rest =>
      cases item with
      | error e => simp [parseGo] at h
      | ok d =>
        cases d with
        | moduleEnd =>
          simp only [parseGo] at h
          injection h with h
          rw [← h]
          intro p hp
          simp at hp
        | variant ms v => simp [parseGo] at h
        | symbol name value deprecations =>
          simp only [parseGo] at h
          split at h
          · exact absurd h (by simp)
          · split at h
            · exact absurd h (by simp)
            · split at h
              · exact absurd h (by simp)
              · rename_i x1 variants rest' hvars x2 symbol hsym x3 defs rest2 hrec
                injection h with h
                rw [← h]
                intro p hp m hm
                rcases List.mem_cons.mp hp with hp | hp
                · rw [hp] at hm
                  exact absurd hm (by simp [Binding.defn])
                · exact ih rest' (defs, rest2) hrec p hp m hm
        | moduleStart name deprecation =>
          simp only [parseGo] at h
          split at h
          · exact absurd h (by simp)
          · split at h
            · exact absurd h (by simp)
            · rename_i x1 mdefs rest' hsub x2 defs rest2 hrec
              injection h with h
              rw [← h]
              intro p hp m hm
              rcases List.mem_cons.mp hp with hp | hp
              · rw [hp] at hm
                simp only [Binding.defn, Def.module.injEq] at hm
                rw [← hm]
                exact moduleNew_allSorted (ih rest (mdefs, rest') hsub)
              · exact ih rest' (defs, rest2) hrec p hp m hm

end build

namespace build

/-- C2, amended: every module of a tree produced by a successful
compilation is sorted in nondecreasing byte order of names, recursively.
(Strict sortedness fails: duplicate names are not rejected, see the
counterexample.) -/
theorem processLines_sorted (lines : List Str) (m : Module)
    (h : processLines lines = .ok m) : AllSorted StrLe m := by
  simp only [processLines] at h
  split at h
  · exact absurd h (by simp)
  · rename_i x defs rest hparse
    injection h with h
    rw [← h]
    exact moduleNew_allSorted (parseGo_inv _ _ _ hparse)

/-- Witness for the amended C2: the theorem applied to a concrete
one-symbol input. -/
theorem processLines_sorted_witness :
    AllSorted StrLe (Module.mk
      [(strOf "a", .mk (.symbol (.single (strOf "x"))) none)]) :=
  processLines_sorted [strOf "a x"] _ rfl

/-- C2, counterexample: the input `a x\na x` is accepted by the
compiler, yet the resulting module repeats the name `a`, so its names are
not strictly increasing (they are not unique). -/
theorem processLines_not_strictly_sorted :
    processLines [strOf "a x", strOf "a x"]
      = .ok (Module.mk
          [(strOf "a", .mk (.symbol (.single (strOf "x"))) none),
           (strOf "a", .mk (.symbol (.single (strOf "x"))) none)]) ∧
    ¬ AllSorted StrLt (Module.mk
          [(strOf "a", .mk (.symbol (.single (strOf "x"))) none),
           (strOf "a", .mk (.symbol (.single (strOf "x"))) none)]) := by
  refine ⟨rfl, fun h => ?_⟩
  cases h with
  | mk _ pairwise _ =>
    rw [List.pairwise_cons] at pairwise
    have := pairwise.1 _ (List.mem_singleton.mpr rfl)
    simp only [entryRel, StrLt] at this
    exact absurd this (by decide)

/-- C6: a symbol declaration carrying a default value and immediately
followed by at least one variant declaration parses to a `Multi` symbol
whose variant list starts with the pair (empty modifier set, default value)
at position 0, followed by the declared variants in source order. -/
theorem default_plus_variants (fuel : Nat) (name v : Str)
    (deprecations : List (Option Str × Str)) (m0 : codex.ModifierSet)
    (val0 : Str) (rest : List (Except String Declaration))
    (out : List (Str × Binding) × List (Except String Declaration))
    (h : parseGo (fuel + 1)
        (.ok (.symbol name (some v) deprecations) :: .ok (.variant m0 val0) :: rest)
        = .ok out) :
    ∃ vs rest' defs',
      takeVariants rest = .ok (vs, rest') ∧
      out.1 = (name, Binding.mk
          (.symbol (.multi ((codex.ModifierSet.default, v) :: (m0, val0) :: vs)
            (deprecations.filterMap (fun p => p.1.map (fun m => (m, p.2))))))
          ((deprecations.find? (fun p => p.1.isNone)).map (fun p => p.2)))
        :: defs' := by
  obtain ⟨out1, out2⟩ := out
  simp only [parseGo] at h
  rw [show takeVariants (Except.ok (Declaration.variant m0 val0) :: rest)
      = (takeVariants rest).map (fun p => ((m0, val0) :: p.1, p.2)) from rfl] at h
  rcases htv : takeVariants rest with e | ⟨vs, tail⟩ <;> rw [htv] at h
  · simp [Except.map] at h
  · simp [Except.map] at h
    rcases hrec : parseGo fuel tail with e2 | ⟨defs, rest2⟩ <;> rw [hrec] at h
    · simp at h
    · simp only [Except.ok.injEq, Prod.mk.injEq] at h
      exact ⟨vs, tail, defs, rfl, h.1.symm⟩

/-- Witness for C6: the theorem applied to a concrete symbol-plus-variant
declaration stream. -/
theorem default_plus_variants_witness :
    ∃ vs rest' defs',
      takeVariants ([] : List (Except String Declaration)) = .ok (vs, rest') ∧
      ([(strOf "a", Binding.mk
          (.symbol (.multi ((codex.ModifierSet.default, strOf "v")
              :: (codex.ModifierSet.mk (strOf "b"), strOf "w") :: vs) []))
          none)] : List (Str × Binding))
        = (strOf "a", Binding.mk
            (.symbol (.multi ((codex.ModifierSet.default, strOf "v")
              :: (codex.ModifierSet.mk (strOf "b"), strOf "w") :: vs) []))
            none) :: defs' := by
  obtain ⟨vs, rest', defs', h1, h2⟩ :=
    default_plus_variants 1 (strOf "a") (strOf "v") [] ⟨strOf "b"⟩
      (strOf "w") []
      ([(strOf "a", Binding.mk
          (.symbol (.multi [(codex.ModifierSet.default, strOf "v"),
            (⟨strOf "b"⟩, strOf "w")] [])) none)], []) rfl
  have h3 : vs = [] ∧ defs' = [] := by simpa using h2
  exact ⟨vs, rest', defs', h1, by simp [h3.1, h3.2]⟩

/-- C7, amended: a pending `@deprecated:` at a module-close or
end-of-file line always turns into a dangling-deprecation error item, and
`parse` fails as soon as it consumes that item — in particular for a file
consisting of a dangling deprecation, or one closing a module right after
it. (If parsing already stopped at an earlier unmatched top-level `}`, the
error item is never consumed and compilation succeeds, see the
counterexample.) -/
theorem dangling_deprecation_spec :
    (∀ (items : List (Except String Line)) (deps : List (Option Str × Str))
        (mo : Option Str) (msg : Str) (fuel : Nat),
      parseGo (fuel + 1)
          (toDeclarations (.ok (.deprecated mo msg) :: .ok .moduleEnd :: items) deps)
        = .error "dangling `@deprecated:`") ∧
    (∀ (items : List (Except String Line)) (deps : List (Option Str × Str))
        (mo : Option Str) (msg : Str) (fuel : Nat),
      parseGo (fuel + 1)
          (toDeclarations (.ok (.deprecated mo msg) :: .ok .eof :: items) deps)
        = .error "dangling `@deprecated:`") ∧
    processLines [strOf "@deprecated: m"] = .error "dangling `@deprecated:`" ∧
    processLines [strOf "a x", strOf "@deprecated: m", strOf "\x7d"]
      = .error "dangling `@deprecated:`" := by
  have hne : ∀ (deps : List (Option Str × Str)) (mo : Option Str) (msg : Str),
      (deps ++ [(mo, msg)]).isEmpty = false := by
    intro deps mo msg
    cases deps <;> rfl
  refine ⟨fun items deps mo msg fuel => ?_, fun items deps mo msg fuel => ?_,
    rfl, rfl⟩
  · simp [toDeclarations, hne, parseGo]
  · simp [toDeclarations, hne, parseGo]

/-- C7, counterexample: the deprecation annotation in
`a x\n}\n@deprecated: m` is immediately followed by the end of the file
with no further declaration, yet compilation succeeds — the unmatched
top-level `}` makes `parse` return before the dangling-deprecation error
item of the lazy stream is ever consumed, and an output tree is produced. -/
theorem dangling_deprecation_after_brace_accepted :
    processLines [strOf "a x", strOf "\x7d", strOf "@deprecated: m"]
      = .ok (Module.mk
          [(strOf "a", .mk (.symbol (.single (strOf "x"))) none)]) := rfl

/-- C8: decoding `\u{2060}` yields the single character U+2060, and
decoding `\vs{16}` and `\vs{emoji}` both yield the single character
U+FE0F. -/
theorem escape_round_trips :
    decode_value (strOf "\\u{2060}") = .ok [Char.ofNat 0x2060] ∧
    decode_value (strOf "\\vs{16}") = .ok [Char.ofNat 0xfe0f] ∧
    decode_value (strOf "\\vs{emoji}") = .ok [Char.ofNat 0xfe0f] :=
  ⟨rfl, rfl, rfl⟩

/-- C4, counterexample: `decode_value` has no `\c{...}` escape at all —
on `\c{not}` it does not return a combining character but fails in the
generic unknown-escape branch. -/
theorem decode_c_escape_rejected :
    decode_value (strOf "\\c{not}")
      = .error "invalid escape sequence: \\c{not}" := rfl

/-- C4, amended: any value starting with `\c` is rejected by the
escape decoder with an invalid-escape-sequence error (there is no
combining-character escape). -/
theorem no_combining_escape (rest : Str) :
    decode_value ('\\' :: 'c' :: rest)
      = .error ("invalid escape sequence: " ++ String.mk ('\\' :: 'c' :: rest)) := by
  simp only [decode_value, decodeValueGo,
    show strOf "\\u\x7b" = ['\\', 'u', '\x7b'] from rfl,
    show strOf "\\vs\x7b" = ['\\', 'v', 's', '\x7b'] from rfl]
  simp [List.isPrefixOf, splitAtChar]

/-- C3, counterexample: a head token containing `@=` is not classified
as an alias declaration (the lexer has no alias line kind); `x@=y.z` is
rejected as an invalid identifier. -/
theorem alias_line_rejected :
    tokenize (strOf "x@=y.z") = .error "invalid identifier: x@=y.z" := rfl

/-- C3, amended: the lexer supports no alias declarations: `@` is not
allowed in identifiers, so any identifier-position token containing `@=`
fails validation, and the line `x@=y.z` is rejected with an
invalid-identifier error rather than classified as an alias. -/
theorem no_alias_classification :
    (∀ s : Str, '@' ∈ s → validate_ident s
        = .error ("invalid identifier: " ++ String.mk s)) ∧
    tokenize (strOf "x@=y.z") = .error "invalid identifier: x@=y.z" := by
  refine ⟨fun s hs => ?_, rfl⟩
  rw [validate_ident]
  have hall : s.all Char.isAlpha = false :=
    List.all_eq_false.mpr ⟨'@', hs, by decide⟩
  rw [hall, Bool.and_false]
  simp

/-- Witness for the amended C3: the general identifier fact applied at the
concrete alias-like head token. -/
theorem no_alias_classification_witness :
    validate_ident (strOf "x@=y.z")
      = .error ("invalid identifier: " ++ String.mk (strOf "x@=y.z")) :=
  no_alias_classification.1 (strOf "x@=y.z") (by decide)

end build
